import Mathlib

/-!
# Verification of the teloscore TVR-comparison core

Shallow embedding of the scoring pipeline of `teloscore` (files
`teloscore/scoring.py`, `teloscore/compare.py`): run-length log-compression
encoding, scoring-matrix construction for both scoring policies, pairwise
score normalization, alignment-trace formatting, and tabular-row filtering.

Sequences are `List Char`; machine floats are modelled exactly:
Python's `round(math.log(n, base))` is embedded as the exact
round-half-to-even of `log_base n` computed with integer arithmetic
(CPython's float evaluation agrees with the exact value on this formula
for all run lengths of interest, ties included), and the final
`raw / normalizer` float division is modelled in `ℚ`.

The external aligner (`parasail.nw_trace_striped_32`) is not part of the
repository; per its interface it returns the optimal global
(Needleman-Wunsch) alignment score under the given substitution matrix and
affine gap penalties, where a gap run of length `L` costs
`open + (L - 1) * extend`.  We embed it as the exact maximum of the
alignment score over all global alignments of the two sequences.
-/

deriving instance DecidableEq for Except

namespace Teloscore

/-- One column of a global alignment: a substitution (consuming one
character of each sequence), an insertion (consuming a query character),
or a deletion (consuming a database character). -/
inductive Op where
  | m : Op
  | ins : Op
  | del : Op
deriving DecidableEq, Repr

/-- Alignments of a query headed by one character (whose tail's
alignments are `prev`) against a database, by recursion on the database:
the head column is a substitution, an insertion, or a deletion. -/
def alignmentsCons (prev : List Char → List (List Op)) : List Char → List (List Op)
  | [] => (prev []).map (Op.ins :: ·)
  | d :: ds =>
    ((prev ds).map (Op.m :: ·)) ++
      ((prev (d :: ds)).map (Op.ins :: ·)) ++
      ((alignmentsCons prev ds).map (Op.del :: ·))

/-- All global alignments of two sequences, each written as the list of
its columns.  Every alignment consumes the query (first list) and the
database (second list) exactly; an empty query leaves only the
all-deletions alignment. -/
def alignments : List Char → List Char → List (List Op)
  | [], ds => [List.replicate ds.length Op.del]
  | _ :: qs, ds => alignmentsCons (alignments qs) ds

/-- Score of one alignment under a substitution matrix `mat` and affine
gap penalties: opening a gap run costs `go` for its first column and `ge`
for each further column (the parasail convention).  `prev` carries the
kind of the preceding column so that gap runs are priced correctly.
Shape-mismatched suffixes (never produced by `alignments`) score `0`. -/
def alignScore (mat : Char → Char → Int) (go ge : Int) :
    Option Op → List Char → List Char → List Op → Int
  | _, q :: qs, d :: ds, Op.m :: ops => mat q d + alignScore mat go ge (some Op.m) qs ds ops
  | prev, _ :: qs, ds, Op.ins :: ops =>
    -(if prev = some Op.ins then ge else go) + alignScore mat go ge (some Op.ins) qs ds ops
  | prev, qs, _ :: ds, Op.del :: ops =>
    -(if prev = some Op.del then ge else go) + alignScore mat go ge (some Op.del) qs ds ops
  | _, _, _, _ => 0

/-- Maximum of a list of integers (`0` for the empty list; `alignments`
is never empty, so the default is never consulted by `nwScore`). -/
def maxList : List Int → Int
  | [] => 0
  | [x] => x
  | x :: y :: xs => max x (maxList (y :: xs))

/-- The external aligner's result: the optimal global-alignment score of
the query `qs` against the database `ds`. -/
def nwScore (mat : Char → Char → Int) (go ge : Int) (qs ds : List Char) : Int :=
  maxList ((alignments qs ds).map (alignScore mat go ge none qs ds))

/-! ## Scoring matrices and policies (`teloscore/scoring.py`) -/

/-- Model of `parasail.matrix_create(alphabet, match, mismatch)`: every symbol
matches itself with `matchScore` and any two distinct symbols score
`mismatchScore`.  (Entries are modelled as a total function on `Char`;
the claims consult it on alphabet characters only.) -/
def matrixCreate (matchScore mismatchScore : Int) : Char → Char → Int :=
  fun c d => if c = d then matchScore else mismatchScore

/-- Point update of one matrix entry, `m[a, b] = v`. -/
def setEntry (mat : Char → Char → Int) (a b : Char) (v : Int) : Char → Char → Int :=
  fun c d => if c = a ∧ d = b then v else mat c d

/-- The `SCORING_ALPHABET` shared by both policies ('A' is the unknown letter). -/
def SCORING_ALPHABET : List Char := "ACDEFGHIKLMNPRSQTVWY".toList

def CANONICAL_LETTER : Char := 'C'

/-- Errors surfaced by the scoring layer.  `invalidLetter` embeds the
`ValueError("Invalid letter encountered: ...")` of
`Scoring2.match_score_for_letter` (the spec's `UnknownSymbolError`). -/
inductive ScoringError where
  | invalidLetter : Char → ScoringError
deriving DecidableEq, Repr

namespace Scoring1

def GAP_OPEN_PENALTY : Int := 3
def GAP_EXTEND_PENALTY : Int := 1
def MATCH_SCORE : Int := 5
def CANONICAL_MATCH_SCORE : Int := 1
def MISMATCH_SCORE : Int := -4

def COMPRESSION_LOG_BASE : Nat := 5

/-- Model of `Scoring1.build_scoring_matrix`: uniform match/mismatch matrix with
the canonical self-match entry lowered to `CANONICAL_MATCH_SCORE`. -/
def SCORING_MATRIX : Char → Char → Int :=
  setEntry (matrixCreate MATCH_SCORE MISMATCH_SCORE)
    CANONICAL_LETTER CANONICAL_LETTER CANONICAL_MATCH_SCORE

/-- The normalizer of `Scoring1.score_seqs`:
`sum(CANONICAL_MATCH_SCORE if qc == CANONICAL_LETTER else MATCH_SCORE for qc in qs)`. -/
def totalPossibleScore (qs : List Char) : Int :=
  (qs.map (fun qc => if qc = CANONICAL_LETTER then CANONICAL_MATCH_SCORE else MATCH_SCORE)).sum

/-- Model of `Scoring1.score_seqs` (similarity component): designate the shorter
sequence as query, align globally, and divide by the normalizer, flooring
at zero.  Wrapped in `Except` for uniformity with policy 2; policy 1
performs no symbol lookup and never fails. -/
def score_seqs (seq1 seq2 : List Char) : Except ScoringError ℚ :=
  let p := if seq1.length ≤ seq2.length then (seq1, seq2) else (seq2, seq1)
  let raw : Int := nwScore SCORING_MATRIX GAP_OPEN_PENALTY GAP_EXTEND_PENALTY p.1 p.2
  let tps : Int := totalPossibleScore p.1
  .ok (max ((raw : ℚ) / (tps : ℚ)) 0)

end Scoring1

namespace Scoring2

def GAP_OPEN_PENALTY : Int := 3
def GAP_EXTEND_PENALTY : Int := 2
def MATCH_SCORE : Int := 5
def CANONICAL_MATCH_SCORE : Int := 1
def CANONICAL_VS_INDEL_MISMATCH_SCORE : Int := -1
def DUBIOUS_MATCH_SCORE : Int := 2
def MISMATCH_SCORE : Int := -4

def COMPRESSION_LOG_BASE : Nat := 4

def DUBIOUS_LETTERS : List Char := "VWY".toList

/-- Model of `Scoring2.MATCH_SCORES`: symbol classes in dictionary order — the
canonical letter, the dubious letters, then every other alphabet letter.
The dubious class carries `MATCH_SCORE`, not `DUBIOUS_MATCH_SCORE`. -/
def MATCH_SCORES : List (List Char × Int) :=
  [([CANONICAL_LETTER], CANONICAL_MATCH_SCORE),
   (DUBIOUS_LETTERS, MATCH_SCORE),
   (SCORING_ALPHABET.filter
      (fun c => ¬(c = CANONICAL_LETTER ∨ c ∈ DUBIOUS_LETTERS)), MATCH_SCORE)]

/-- Model of `Scoring2.build_scoring_matrix`: uniform matrix, then the canonical
self-match override, the symmetric canonical-vs-'T' override, and the
dubious self-match overrides in order. -/
def SCORING_MATRIX : Char → Char → Int :=
  DUBIOUS_LETTERS.foldl (fun m d => setEntry m d d DUBIOUS_MATCH_SCORE)
    (setEntry
      (setEntry
        (setEntry (matrixCreate MATCH_SCORE MISMATCH_SCORE)
          CANONICAL_LETTER CANONICAL_LETTER CANONICAL_MATCH_SCORE)
        CANONICAL_LETTER 'T' CANONICAL_VS_INDEL_MISMATCH_SCORE)
      'T' CANONICAL_LETTER CANONICAL_VS_INDEL_MISMATCH_SCORE)

/-- Model of `Scoring2.match_score_for_letter`: first class of `MATCH_SCORES`
containing the letter wins; letters in no class raise. -/
def match_score_for_letter (x : Char) : Except ScoringError Int :=
  match MATCH_SCORES.find? (fun kv => x ∈ kv.1) with
  | some kv => .ok kv.2
  | none => .error (.invalidLetter x)

/-- The normalizer of `Scoring2.score_seqs`:
`sum(map(self.match_score_for_letter, qs))`, failing at the first letter
outside the class table. -/
def totalPossibleScore : List Char → Except ScoringError Int
  | [] => .ok 0
  | c :: cs => do
    let v ← match_score_for_letter c
    let r ← totalPossibleScore cs
    .ok (v + r)

/-- Model of `Scoring2.score_seqs` (similarity component). -/
def score_seqs (seq1 seq2 : List Char) : Except ScoringError ℚ := do
  let p := if seq1.length ≤ seq2.length then (seq1, seq2) else (seq2, seq1)
  let raw : Int := nwScore SCORING_MATRIX GAP_OPEN_PENALTY GAP_EXTEND_PENALTY p.1 p.2
  let tps ← totalPossibleScore p.1
  .ok (max ((raw : ℚ) / (tps : ℚ)) 0)

end Scoring2

/-! ## Run-length log-compression (`BaseScoringSystem.encode_seq`) -/

/-- Exact value of Python's `round(math.log(n, b))` for `n ≥ 1`, `b ≥ 2`
(round half to even).  `log_b n ≥ k + 1/2` iff `b ^ (2k + 1) ≤ n²`, so
the count `m` of such `k` is the half-up rounding of `log_b n`; the tie
`log_b n = m - 1/2` (i.e. `b ^ (2m - 1) = n²`) is sent back down to
`m - 1` exactly when `m - 1` is even. -/
def roundLog (b n : Nat) : Nat :=
  let sq := n * n
  let m := ((List.range n).filter (fun k => b ^ (2 * k + 1) ≤ sq)).length
  if 0 < m ∧ b ^ (2 * m - 1) = sq ∧ (m - 1) % 2 = 0 then m - 1 else m

/-- Characters emitted for one maximal run of `c` of length `n`:
`c` repeated `int(1.0 + round(math.log(n, b)))` times. -/
def emitRun (b : Nat) (c : Char) (n : Nat) : List Char :=
  List.replicate (1 + roundLog b n) c

/-- The character-scanning loop of `encode_seq`, carrying the current run
character and count; the end of the input flushes the final run (the code
appends a sentinel `""`, which differs from every character). -/
def encodeLoop (b : Nat) : List Char → Char → Nat → List Char
  | [], c, n => emitRun b c n
  | x :: xs, c, n =>
    if x = c then encodeLoop b xs c (n + 1)
    else emitRun b c n ++ encodeLoop b xs x 1

/-- Model of `BaseScoringSystem.encode_seq` (the code asserts the input non-empty;
the empty case is unreachable and returns `[]`). -/
def encode_seq (b : Nat) : List Char → List Char
  | [] => []
  | c :: rest => encodeLoop b rest c 1

/-- Maximal-run decomposition of a sequence, as (character, length)
pairs in order — the specification-side notion of "group the sequence
into maximal runs of one repeated character". -/
def maximalRuns : List Char → List (Char × Nat)
  | [] => []
  | c :: rest =>
    match maximalRuns rest with
    | (c', n) :: t => if c = c' then (c, n + 1) :: t else (c, 1) :: (c', n) :: t
    | [] => [(c, 1)]

/-! ## Alignment-trace formatting (`compare._fmt_alignment`) -/

/-- Failure of the formatter: `list.pop(0)` on an exhausted sequence. -/
inductive FmtError where
  | popFromEmpty : FmtError
deriving DecidableEq, Repr

/-- The formatter's working state: the three accumulated output lines
(in reverse) and the unconsumed remainders of the two sequences. -/
def FmtState : Type := List Char × List Char × List Char × List Char × List Char

/-- Processing of one `(op, count)` item of the CIGAR walk of `_fmt_alignment`, by
recursion on `count`.  Operation codes 0/7/8 consume one character of
each sequence per unit, 1 consumes the query against a `-`, 2/3 consume
the database against a `-`, 4 silently consumes the query; any other
code matches no branch of the loop body, so each of its iterations does
nothing and the state is returned unchanged. -/
def fmtStep (op : Nat) : Nat → FmtState → Except FmtError FmtState
  | 0, st => .ok st
  | n + 1, (c1, lc, c2, s1, s2) =>
    if op = 0 ∨ op = 7 ∨ op = 8 then
      match s1, s2 with
      | x :: s1', y :: s2' =>
        fmtStep op n (x :: c1, (if op ≠ 8 then '|' else 'X') :: lc, y :: c2, s1', s2')
      | _, _ => .error .popFromEmpty
    else if op = 1 then
      match s1 with
      | x :: s1' => fmtStep op n (x :: c1, ' ' :: lc, '-' :: c2, s1', s2)
      | [] => .error .popFromEmpty
    else if op = 2 ∨ op = 3 then
      match s2 with
      | y :: s2' => fmtStep op n ('-' :: c1, ' ' :: lc, y :: c2, s1, s2')
      | [] => .error .popFromEmpty
    else if op = 4 then
      match s1 with
      | _ :: s1' => fmtStep op n (c1, lc, c2, s1', s2)
      | [] => .error .popFromEmpty
    else
      .ok (c1, lc, c2, s1, s2)

/-- The CIGAR-walking loop of `_fmt_alignment` over the trace items,
reversing the accumulated lines at the end. -/
def fmtGo : FmtState → List (Nat × Nat) → Except FmtError (List Char × List Char × List Char)
  | (c1, lc, c2, _, _), [] => .ok (c1.reverse, lc.reverse, c2.reverse)
  | st, (op, n) :: rest => do
    let st' ← fmtStep op n st
    fmtGo st' rest

/-- Model of `_fmt_alignment` (as the three lines rather than their newline join):
reorder the two sequences so the shorter is on top, then walk the trace. -/
def fmt_alignment (seq1 seq2 : List Char) (cigar : List (Nat × Nat)) :
    Except FmtError (List Char × List Char × List Char) :=
  let p := if seq1.length ≤ seq2.length then (seq1, seq2) else (seq2, seq1)
  fmtGo ([], [], [], p.1, p.2) cigar

/-! ## Tabular-row loading (`compare._read_sample_files`,
`BaseScoringSystem.build_telo_from_row`) -/

/-- A parsed TSV row: an association list from column name to cell text
(Python's `csv.DictReader` row dict). -/
abbrev Row := List (String × String)

/-- Dictionary lookup `row.get(key)`: `none` when the column is absent. -/
def rowGet (r : Row) (k : String) : Option String :=
  (r.find? (fun kv => kv.1 = k)).map (fun kv => kv.2)

/-- Model of `filter_row` of `_read_sample_files`: keep a row unless its
`tvr_len` column is present and textually equal to `"0"`. -/
def filter_row (r : Row) : Bool :=
  !(rowGet r "tvr_len" == some "0")

/-- The rows of one sample file that survive loading, in order. -/
def readSampleRows (rows : List Row) : List Row :=
  rows.filter filter_row

/-- Failures of `build_telo_from_row`: a missing required column
(`KeyError`), a missing chromosome arm (`ValueError`), or the
`assert len(seq) > 0` of `encode_seq` on an empty consensus. -/
inductive LoadError where
  | missingColumn : String → LoadError
  | missingArm : LoadError
  | emptySeq : LoadError
deriving DecidableEq, Repr

/-- An allele record (`TeloType`). -/
structure Telo where
  arm : String
  allele_id : String
  tvr_consensus : List Char
  tvr_consensus_encoded : List Char
deriving DecidableEq, Repr

/-- Model of `BaseScoringSystem.build_telo_from_row` for compression log base `b`:
look up `tvr_consensus` (KeyError if absent), resolve the arm from
`#chr`/`chr` (ValueError if empty or absent), look up `allele_id`
(KeyError if absent), then log-compress the consensus (assertion failure
on an empty consensus). -/
def build_telo_from_row (b : Nat) (r : Row) : Except LoadError Telo :=
  match rowGet r "tvr_consensus" with
  | none => .error (.missingColumn "tvr_consensus")
  | some tvr =>
    let arm := (rowGet r "#chr").getD ((rowGet r "chr").getD "")
    if arm = "" then .error .missingArm
    else
      match rowGet r "allele_id" with
      | none => .error (.missingColumn "allele_id")
      | some aid =>
        if tvr.toList = [] then .error .emptySeq
        else .ok ⟨arm, aid, tvr.toList, encode_seq b tvr.toList⟩

/-! ## Lemmas about the alignment model -/

theorem le_maxList {l : List Int} {x : Int} (hx : x ∈ l) : x ≤ maxList l := by
  induction l with
  | nil => cases hx
  | cons a t ih =>
    cases t with
    | nil => simp at hx; simp [maxList, hx]
    | cons b t' =>
      rcases List.mem_cons.mp hx with h | h
      · simp [maxList, h]
      · exact le_trans (ih h) (le_max_right _ _)

theorem maxList_le {l : List Int} {B : Int} (hne : l ≠ []) (h : ∀ x ∈ l, x ≤ B) :
    maxList l ≤ B := by
  induction l with
  | nil => exact absurd rfl hne
  | cons a t ih =>
    cases t with
    | nil => simpa [maxList] using h a (List.mem_cons_self a _)
    | cons b t' =>
      simp only [maxList, max_le_iff]
      exact ⟨h a (List.mem_cons_self a _),
        ih (List.cons_ne_nil _ _) (fun x hx => h x (List.mem_cons_of_mem a hx))⟩

theorem alignments_ne_nil : ∀ qs ds : List Char, alignments qs ds ≠ [] := by
  intro qs
  induction qs with
  | nil => intro ds; simp [alignments]
  | cons q qs' ih =>
    intro ds
    cases ds with
    | nil =>
      simp only [alignments, alignmentsCons, ne_eq, List.map_eq_nil_iff]
      exact ih []
    | cons d ds' =>
      have h := ih ds'
      simp only [alignments, alignmentsCons, ne_eq, List.append_eq_nil,
        List.map_eq_nil_iff]
      tauto

/-- Every alignment's score is bounded by a per-query-character weight sum
whenever the weights dominate the matrix rows, are non-negative, and the
gap penalties are non-negative. -/
theorem alignScore_le_sum (mat : Char → Char → Int) (go ge : Int) (w : Char → Int)
    (hgo : 0 ≤ go) (hge : 0 ≤ ge) (hmat : ∀ c d, mat c d ≤ w c) (hw : ∀ c, 0 ≤ w c) :
    ∀ (ops : List Op) (prev : Option Op) (qs ds : List Char),
      alignScore mat go ge prev qs ds ops ≤ (qs.map w).sum := by
  intro ops
  induction ops with
  | nil =>
    intro prev qs ds
    simp [alignScore]
    exact List.sum_nonneg (by intro x hx; rcases List.mem_map.mp hx with ⟨c, _, rfl⟩; exact hw c)
  | cons op tl ih =>
    intro prev qs ds
    have hsum : ∀ qs' : List Char, (0:Int) ≤ (qs'.map w).sum := by
      intro qs'
      exact List.sum_nonneg (by intro x hx; rcases List.mem_map.mp hx with ⟨c, _, rfl⟩; exact hw c)
    cases op with
    | m =>
      cases qs with
      | nil => simp [alignScore]
      | cons q qs' =>
        cases ds with
        | nil => simpa [alignScore] using hsum (q :: qs')
        | cons d ds' =>
          simp only [alignScore, List.map_cons, List.sum_cons]
          exact add_le_add (hmat q d) (ih (some Op.m) qs' ds')
    | ins =>
      cases qs with
      | nil => simp [alignScore]
      | cons q qs' =>
        simp only [alignScore, List.map_cons, List.sum_cons]
        have h1 : -(if prev = some Op.ins then ge else go) ≤ 0 := by
          split <;> omega
        have h2 := ih (some Op.ins) qs' ds
        have h3 := hw q
        omega
    | del =>
      cases ds with
      | nil =>
        cases qs with
        | nil => simp [alignScore]
        | cons q qs' => simpa [alignScore] using hsum (q :: qs')
      | cons d ds' =>
        have h1 : -(if prev = some Op.del then ge else go) ≤ 0 := by
          split <;> omega
        have h2 := ih (some Op.del) qs ds'
        simp only [alignScore]
        omega

/-- The identity alignment (all-substitution columns) is a global
alignment of a sequence against itself. -/
theorem replicate_m_mem_alignments : ∀ qs : List Char,
    List.replicate qs.length Op.m ∈ alignments qs qs := by
  intro qs
  induction qs with
  | nil => simp [alignments]
  | cons q qs' ih =>
    simp only [alignments, alignmentsCons, List.length_cons, List.replicate_succ,
      List.mem_append]
    exact Or.inl (Or.inl (List.mem_map.mpr ⟨_, ih, rfl⟩))

/-- The identity alignment scores the sum of the diagonal weights. -/
theorem alignScore_replicate_m (mat : Char → Char → Int) (go ge : Int) :
    ∀ (qs : List Char) (prev : Option Op),
      alignScore mat go ge prev qs qs (List.replicate qs.length Op.m) =
        (qs.map (fun c => mat c c)).sum := by
  intro qs
  induction qs with
  | nil => intro prev; simp [alignScore]
  | cons q qs' ih =>
    intro prev
    simp only [List.length_cons, List.replicate_succ, alignScore, List.map_cons, List.sum_cons]
    rw [ih (some Op.m)]

/-- Upper bound on the aligner's result from dominating row weights. -/
theorem nwScore_le_sum (mat : Char → Char → Int) (go ge : Int) (w : Char → Int)
    (hgo : 0 ≤ go) (hge : 0 ≤ ge) (hmat : ∀ c d, mat c d ≤ w c) (hw : ∀ c, 0 ≤ w c)
    (qs ds : List Char) :
    nwScore mat go ge qs ds ≤ (qs.map w).sum := by
  refine maxList_le ?_ ?_
  · simp [alignments_ne_nil]
  · intro x hx
    rcases List.mem_map.mp hx with ⟨ops, _, rfl⟩
    exact alignScore_le_sum mat go ge w hgo hge hmat hw ops none qs ds

/-- When each matrix row is maximized on the diagonal and the diagonal is
non-negative, the optimal self-alignment score is the diagonal sum. -/
theorem nwScore_self_eq (mat : Char → Char → Int) (go ge : Int)
    (hgo : 0 ≤ go) (hge : 0 ≤ ge) (hmat : ∀ c d, mat c d ≤ mat c c)
    (hdiag : ∀ c, 0 ≤ mat c c) (qs : List Char) :
    nwScore mat go ge qs qs = (qs.map (fun c => mat c c)).sum := by
  refine le_antisymm (nwScore_le_sum mat go ge _ hgo hge hmat hdiag qs qs) ?_
  calc (qs.map (fun c => mat c c)).sum
      = alignScore mat go ge none qs qs (List.replicate qs.length Op.m) :=
        (alignScore_replicate_m mat go ge qs none).symm
    _ ≤ nwScore mat go ge qs qs :=
        le_maxList (List.mem_map.mpr ⟨_, replicate_m_mem_alignments qs, rfl⟩)

/-! ## Pointwise facts about the two scoring matrices -/

/-- Per-character weight used by policy 1's normalizer. -/
def w1 (c : Char) : Int := if c = CANONICAL_LETTER then 1 else 5

/-- Per-character weight used by policy 2's normalizer on valid letters
(the dubious letters get the base match weight here, not their reduced
matrix self-match weight). -/
def w2 (c : Char) : Int := if c = CANONICAL_LETTER then 1 else 5

theorem scoring1_matrix_diag (c : Char) : Scoring1.SCORING_MATRIX c c = w1 c := by
  simp only [Scoring1.SCORING_MATRIX, setEntry, matrixCreate, w1,
    Scoring1.CANONICAL_MATCH_SCORE, Scoring1.MATCH_SCORE]
  split_ifs with h1 h2 <;> simp_all

theorem scoring1_matrix_row_le (c d : Char) : Scoring1.SCORING_MATRIX c d ≤ w1 c := by
  simp only [Scoring1.SCORING_MATRIX, setEntry, matrixCreate, w1,
    Scoring1.CANONICAL_MATCH_SCORE, Scoring1.MATCH_SCORE, Scoring1.MISMATCH_SCORE]
  split_ifs <;> first | omega | (exfalso; aesop)

theorem scoring1_matrix_diag_dominates (c d : Char) :
    Scoring1.SCORING_MATRIX c d ≤ Scoring1.SCORING_MATRIX c c := by
  rw [scoring1_matrix_diag]; exact scoring1_matrix_row_le c d

theorem scoring1_tps_eq (qs : List Char) :
    Scoring1.totalPossibleScore qs = (qs.map w1).sum := rfl

/-- Unfolded form of policy 2's matrix: the dubious-letter fold expands
to three further point updates. -/
theorem scoring2_matrix_eq (c d : Char) :
    Scoring2.SCORING_MATRIX c d =
      if c = d then
        (if c = 'C' then 1 else if c = 'V' ∨ c = 'W' ∨ c = 'Y' then 2 else 5)
      else if (c = 'C' ∧ d = 'T') ∨ (c = 'T' ∧ d = 'C') then -1
      else -4 := by
  simp only [Scoring2.SCORING_MATRIX, Scoring2.DUBIOUS_LETTERS, String.toList,
    Scoring2.DUBIOUS_MATCH_SCORE, Scoring2.CANONICAL_MATCH_SCORE,
    Scoring2.CANONICAL_VS_INDEL_MISMATCH_SCORE, Scoring2.MATCH_SCORE,
    Scoring2.MISMATCH_SCORE, CANONICAL_LETTER, List.foldl, setEntry, matrixCreate]
  split_ifs <;> first | rfl | omega | (exfalso; aesop)

theorem scoring2_matrix_diag_dominates (c d : Char) :
    Scoring2.SCORING_MATRIX c d ≤ Scoring2.SCORING_MATRIX c c := by
  rw [scoring2_matrix_eq, scoring2_matrix_eq]
  split_ifs <;> first | omega | (exfalso; aesop)

theorem scoring2_matrix_diag_nonneg (c : Char) : 0 ≤ Scoring2.SCORING_MATRIX c c := by
  rw [scoring2_matrix_eq]
  split_ifs <;> first | omega | (exfalso; aesop)

theorem scoring2_matrix_row_le (c d : Char) : Scoring2.SCORING_MATRIX c d ≤ w2 c := by
  rw [scoring2_matrix_eq]
  simp only [w2, CANONICAL_LETTER]
  split_ifs <;> first | omega | (exfalso; aesop)

/-! ## Policy 2 symbol-class lookup -/

theorem match_score_for_letter_valid :
    ∀ c ∈ SCORING_ALPHABET, Scoring2.match_score_for_letter c = .ok (w2 c) := by
  decide

theorem match_scores_subset_alphabet :
    ∀ kv ∈ Scoring2.MATCH_SCORES, ∀ c ∈ kv.1, c ∈ SCORING_ALPHABET := by
  decide

theorem match_score_for_letter_invalid {c : Char} (hc : c ∉ SCORING_ALPHABET) :
    Scoring2.match_score_for_letter c = .error (.invalidLetter c) := by
  unfold Scoring2.match_score_for_letter
  have : Scoring2.MATCH_SCORES.find? (fun kv => c ∈ kv.1) = none := by
    apply List.find?_eq_none.mpr
    intro kv hkv
    simp only [decide_eq_true_eq]
    intro hmem
    exact hc (match_scores_subset_alphabet kv hkv c hmem)
  rw [this]

theorem scoring2_tps_valid {qs : List Char} (h : ∀ c ∈ qs, c ∈ SCORING_ALPHABET) :
    Scoring2.totalPossibleScore qs = .ok ((qs.map w2).sum) := by
  induction qs with
  | nil => simp [Scoring2.totalPossibleScore]
  | cons c cs ih =>
    have hc := match_score_for_letter_valid c (h c (List.mem_cons_self c cs))
    have hcs := ih (fun x hx => h x (List.mem_cons_of_mem c hx))
    simp only [Scoring2.totalPossibleScore, hc, hcs, List.map_cons, List.sum_cons]
    rfl

theorem scoring2_tps_invalid :
    ∀ qs : List Char, (∃ c ∈ qs, c ∉ SCORING_ALPHABET) →
      ∃ c, c ∉ SCORING_ALPHABET ∧
        Scoring2.totalPossibleScore qs = .error (.invalidLetter c) := by
  intro qs
  induction qs with
  | nil => rintro ⟨c, hc, _⟩; cases hc
  | cons c cs ih =>
    rintro ⟨x, hx, hxa⟩
    by_cases hc : c ∈ SCORING_ALPHABET
    · have hx' : x ∈ cs := by
        rcases List.mem_cons.mp hx with rfl | h
        · exact absurd hc hxa
        · exact h
      rcases ih ⟨x, hx', hxa⟩ with ⟨c₀, hc₀, heq⟩
      refine ⟨c₀, hc₀, ?_⟩
      simp only [Scoring2.totalPossibleScore, match_score_for_letter_valid c hc, heq]
      rfl
    · refine ⟨c, hc, ?_⟩
      simp only [Scoring2.totalPossibleScore, match_score_for_letter_invalid hc]
      rfl

/-! ## Sum helper lemmas -/

theorem length_le_sum_of_one_le (w : Char → Int) :
    ∀ qs : List Char, (∀ c ∈ qs, 1 ≤ w c) → (qs.length : Int) ≤ (qs.map w).sum := by
  intro qs
  induction qs with
  | nil => simp
  | cons c cs ih =>
    intro h
    have h1 := h c (List.mem_cons_self c cs)
    have h2 := ih (fun x hx => h x (List.mem_cons_of_mem c hx))
    simp only [List.length_cons, List.map_cons, List.sum_cons]
    push_cast
    omega

/-- Per-letter gap between policy 2's normalizer weight and its matrix
self-match weight: `3` exactly on the dubious letters, `0` elsewhere. -/
theorem w2_diag_gap :
    ∀ c ∈ SCORING_ALPHABET,
      w2 c = Scoring2.SCORING_MATRIX c c +
        (if c ∈ Scoring2.DUBIOUS_LETTERS then 3 else 0) := by
  decide

theorem w2_sum_eq_diag_sum_add {qs : List Char} (h : ∀ c ∈ qs, c ∈ SCORING_ALPHABET) :
    (qs.map w2).sum =
      (qs.map (fun c => Scoring2.SCORING_MATRIX c c)).sum +
        3 * ((qs.filter (fun c => c ∈ Scoring2.DUBIOUS_LETTERS)).length : Int) := by
  induction qs with
  | nil => simp
  | cons c cs ih =>
    have hgap := w2_diag_gap c (h c (List.mem_cons_self c cs))
    have ih' := ih (fun x hx => h x (List.mem_cons_of_mem c hx))
    by_cases hd : c ∈ Scoring2.DUBIOUS_LETTERS
    · simp only [List.map_cons, List.sum_cons, List.filter_cons, ih', hgap]
      simp only [hd, decide_True, if_true, List.length_cons]
      push_cast
      ring
    · simp only [List.map_cons, List.sum_cons, List.filter_cons, ih', hgap]
      simp [hd]
      push_cast
      ring

/-! ## Lemmas about the run-length encoder -/

theorem maximalRuns_head (x : Char) (xs : List Char) :
    ∃ n t, maximalRuns (x :: xs) = (x, n) :: t ∧ 1 ≤ n := by
  cases h : maximalRuns xs with
  | nil => exact ⟨1, [], by simp [maximalRuns, h], le_refl 1⟩
  | cons p t =>
    obtain ⟨c', n'⟩ := p
    by_cases hx : x = c'
    · subst hx
      exact ⟨n' + 1, t, by simp [maximalRuns, h], by omega⟩
    · exact ⟨1, (c', n') :: t, by simp [maximalRuns, h, hx], le_refl 1⟩

theorem replicate_append_cons (n : Nat) (c : Char) (xs : List Char) :
    List.replicate n c ++ c :: xs = List.replicate (n + 1) c ++ xs := by
  rw [List.replicate_succ', List.append_assoc]
  rfl

theorem maximalRuns_replicate (n : Nat) (c : Char) :
    maximalRuns (List.replicate (n + 1) c) = [(c, n + 1)] := by
  induction n with
  | zero => simp [maximalRuns]
  | succ k ih => rw [List.replicate_succ, maximalRuns, ih]; simp

theorem maximalRuns_replicate_append {x c : Char} (hx : x ≠ c) (n : Nat) (xs : List Char) :
    maximalRuns (List.replicate (n + 1) c ++ x :: xs) =
      (c, n + 1) :: maximalRuns (x :: xs) := by
  induction n with
  | zero =>
    obtain ⟨m, t, hm, _⟩ := maximalRuns_head x xs
    simp only [List.replicate_succ, List.replicate_zero, List.nil_append, List.cons_append]
    rw [maximalRuns, hm]
    simp [Ne.symm hx]
  | succ k ih =>
    rw [List.replicate_succ, List.cons_append, maximalRuns, ih]
    simp

theorem encodeLoop_eq_runs (b : Nat) :
    ∀ (xs : List Char) (c : Char) (n : Nat),
      encodeLoop b xs c (n + 1) =
        ((maximalRuns (List.replicate (n + 1) c ++ xs)).map
          (fun r => emitRun b r.1 r.2)).flatten := by
  intro xs
  induction xs with
  | nil =>
    intro c n
    simp [encodeLoop, maximalRuns_replicate]
  | cons x xs' ih =>
    intro c n
    by_cases hx : x = c
    · subst hx
      rw [replicate_append_cons]
      simp only [encodeLoop, if_pos rfl]
      exact ih x (n + 1)
    · simp only [encodeLoop, if_neg hx]
      rw [maximalRuns_replicate_append hx]
      have h1 := ih x 0
      simp only [List.replicate_succ, List.replicate_zero, List.nil_append,
        List.cons_append] at h1
      simp only [List.map_cons, List.flatten_cons]
      rw [h1]

/-- The scanning loop computes exactly the per-maximal-run re-emission. -/
theorem encode_seq_eq_runs (b : Nat) (s : List Char) :
    encode_seq b s = ((maximalRuns s).map (fun r => emitRun b r.1 r.2)).flatten := by
  cases s with
  | nil => simp [encode_seq, maximalRuns]
  | cons c rest =>
    have h := encodeLoop_eq_runs b rest c 0
    simp only [List.replicate_succ, List.replicate_zero, List.nil_append,
      List.cons_append] at h
    simpa [encode_seq] using h

/-- Re-inflating the maximal runs gives back the original sequence. -/
theorem maximalRuns_flatten (s : List Char) :
    ((maximalRuns s).map (fun r => List.replicate r.2 r.1)).flatten = s := by
  induction s with
  | nil => simp [maximalRuns]
  | cons c rest ih =>
    cases h : maximalRuns rest with
    | nil =>
      have : rest = [] := by rw [h] at ih; simpa using ih.symm
      subst this
      simp [maximalRuns, h]
    | cons p t =>
      obtain ⟨c', n'⟩ := p
      rw [h] at ih
      simp only [List.map_cons, List.flatten_cons] at ih
      by_cases hx : c = c'
      · rw [maximalRuns, h]
        simp only []
        rw [if_pos hx]
        subst hx
        simp only [List.map_cons, List.flatten_cons]
        rw [List.replicate_succ, List.cons_append, ih]
      · rw [maximalRuns, h]
        simp only []
        rw [if_neg hx]
        simp only [List.map_cons, List.flatten_cons]
        rw [ih]
        simp

/-- Each maximal run is non-trivial. -/
theorem maximalRuns_pos (s : List Char) : ∀ r ∈ maximalRuns s, 1 ≤ r.2 := by
  induction s with
  | nil => simp [maximalRuns]
  | cons c rest ih =>
    intro r hr
    cases h : maximalRuns rest with
    | nil =>
      rw [maximalRuns] at hr
      rw [h] at hr
      simp at hr
      simp [hr]
    | cons p t =>
      obtain ⟨c', n'⟩ := p
      rw [maximalRuns] at hr
      rw [h] at hr
      rw [h] at ih
      simp only [] at hr
      by_cases hx : c = c'
      · rw [if_pos hx] at hr
        rcases List.mem_cons.mp hr with rfl | hr'
        · simp
        · exact ih r (List.mem_cons_of_mem _ hr')
      · rw [if_neg hx] at hr
        rcases List.mem_cons.mp hr with rfl | hr'
        · simp
        · exact ih r hr'

/-- Adjacent maximal runs carry distinct characters. -/
theorem maximalRuns_chain (s : List Char) :
    List.Chain' (fun a b : Char × Nat => a.1 ≠ b.1) (maximalRuns s) := by
  induction s with
  | nil => simp [maximalRuns]
  | cons c rest ih =>
    cases h : maximalRuns rest with
    | nil => simp [maximalRuns, h]
    | cons p t =>
      obtain ⟨c', n'⟩ := p
      rw [h] at ih
      rw [maximalRuns, h]
      simp only []
      by_cases hx : c = c'
      · subst hx
        rw [if_pos rfl]
        rcases List.chain'_cons'.mp ih with ⟨hhd, htl⟩
        exact List.chain'_cons'.mpr ⟨hhd, htl⟩
      · rw [if_neg hx]
        exact List.chain'_cons.mpr ⟨hx, ih⟩

/-! ## Bounding the rounded logarithm -/

theorem sq_lt_two_pow (n : Nat) : (n + 1) * (n + 1) < 2 ^ (2 * n + 1) := by
  have h1 : n + 1 ≤ 2 ^ n := Nat.succ_le_of_lt (Nat.lt_two_pow n)
  have h2 : (n + 1) * (n + 1) ≤ 2 ^ n * 2 ^ n := Nat.mul_le_mul h1 h1
  have h3 : 2 ^ n * 2 ^ n = 2 ^ (2 * n) := by rw [← pow_add]; ring_nf
  have h4 : 2 ^ (2 * n) < 2 ^ (2 * n + 1) :=
    Nat.pow_lt_pow_right one_lt_two (Nat.lt_succ_self _)
  omega

theorem roundLog_le (b n : Nat) (hb : 2 ≤ b) : 1 + roundLog b (n + 1) ≤ n + 1 := by
  have hnot : ¬ (b ^ (2 * n + 1) ≤ (n + 1) * (n + 1)) := by
    have h1 : 2 ^ (2 * n + 1) ≤ b ^ (2 * n + 1) := Nat.pow_le_pow_left hb _
    have h2 := sq_lt_two_pow n
    omega
  have hm : ((List.range (n + 1)).filter
      (fun k => b ^ (2 * k + 1) ≤ (n + 1) * (n + 1))).length ≤ n := by
    rw [List.range_succ, List.filter_append]
    have hlast : (List.filter (fun k => decide (b ^ (2 * k + 1) ≤ (n + 1) * (n + 1))) [n]) = [] := by
      simp [hnot]
    rw [hlast, List.append_nil]
    calc (List.filter _ (List.range n)).length ≤ (List.range n).length :=
          List.length_filter_le _ _
      _ = n := List.length_range n
  simp only [roundLog]
  split_ifs with h
  · omega
  · omega

/-- The encoding never grows a sequence (per-run, by `roundLog_le`). -/
theorem encode_seq_length_le (b : Nat) (hb : 2 ≤ b) (s : List Char) :
    (encode_seq b s).length ≤ s.length := by
  rw [encode_seq_eq_runs]
  have hlen : s.length = ((maximalRuns s).map (fun r => r.2)).sum := by
    conv_lhs => rw [← maximalRuns_flatten s]
    rw [List.length_flatten, List.map_map]
    congr 1
    simp [Function.comp]
  rw [List.length_flatten, List.map_map, hlen]
  apply List.sum_le_sum
  intro r hr
  have h1 := maximalRuns_pos s r hr
  obtain ⟨k, hk⟩ : ∃ k, r.2 = k + 1 := ⟨r.2 - 1, by omega⟩
  simp only [Function.comp, emitRun, List.length_replicate, hk]
  exact roundLog_le b k hb

/-- The encoding of a non-empty sequence is non-empty. -/
theorem encode_seq_ne_nil (b : Nat) {s : List Char} (hs : s ≠ []) :
    encode_seq b s ≠ [] := by
  cases s with
  | nil => exact absurd rfl hs
  | cons c rest =>
    rw [encode_seq_eq_runs]
    obtain ⟨n, t, hm, _⟩ := maximalRuns_head c rest
    rw [hm]
    simp [emitRun, List.replicate_succ]

/-! ## Formatter skip lemma -/

/-- An unsupported CIGAR operation item matches none of the loop's
branches: the state is unchanged and processing continues. -/
theorem fmtGo_skip_unsupported (st : FmtState) (op n : Nat)
    (rest : List (Nat × Nat))
    (hop : ¬(op = 0 ∨ op = 1 ∨ op = 2 ∨ op = 3 ∨ op = 4 ∨ op = 7 ∨ op = 8)) :
    fmtGo st ((op, n) :: rest) = fmtGo st rest := by
  push_neg at hop
  obtain ⟨h0, h1, h2, h3, h4, h7, h8⟩ := hop
  have hstep : fmtStep op n st = .ok st := by
    cases n with
    | zero => rfl
    | succ k =>
      obtain ⟨c1, lc, c2, s1, s2⟩ := st
      have hA : ¬(op = 0 ∨ op = 7 ∨ op = 8) := by tauto
      have hB : ¬(op = 2 ∨ op = 3) := by tauto
      simp only [fmtStep, if_neg hA, if_neg h1, if_neg hB, if_neg h4]
  obtain ⟨c1, lc, c2, s1, s2⟩ := st
  simp only [fmtGo, hstep]
  rfl

/-! ## Query selection and similarity bounds -/

/-- The query of a pair as chosen by `score_seqs` and `_fmt_alignment`:
the first sequence when it is no longer than the second, else the second. -/
def queryOf (seq1 seq2 : List Char) : List Char :=
  if seq1.length ≤ seq2.length then seq1 else seq2

theorem w1_one_le (c : Char) : 1 ≤ w1 c := by
  unfold w1; split <;> omega

theorem w1_nonneg (c : Char) : 0 ≤ w1 c := le_trans one_pos.le (w1_one_le c)

theorem w2_one_le (c : Char) : 1 ≤ w2 c := by
  unfold w2; split <;> omega

theorem w2_nonneg (c : Char) : 0 ≤ w2 c := le_trans one_pos.le (w2_one_le c)

theorem sim_bounds {raw tps : Int} (hle : raw ≤ tps) (hpos : 0 < tps) :
    0 ≤ max ((raw : ℚ) / (tps : ℚ)) 0 ∧ max ((raw : ℚ) / (tps : ℚ)) 0 ≤ 1 := by
  refine ⟨le_max_right _ _, max_le ?_ (by norm_num)⟩
  rw [div_le_one (by exact_mod_cast hpos)]
  exact_mod_cast hle

theorem scoring1_raw_le_tps (qs ds : List Char) :
    nwScore Scoring1.SCORING_MATRIX Scoring1.GAP_OPEN_PENALTY Scoring1.GAP_EXTEND_PENALTY qs ds ≤
      Scoring1.totalPossibleScore qs := by
  rw [scoring1_tps_eq]
  exact nwScore_le_sum _ _ _ w1 (by decide) (by decide) scoring1_matrix_row_le w1_nonneg qs ds

theorem scoring1_tps_pos {qs : List Char} (hq : qs ≠ []) :
    0 < Scoring1.totalPossibleScore qs := by
  rw [scoring1_tps_eq]
  have h1 := length_le_sum_of_one_le w1 qs (fun c _ => w1_one_le c)
  have h2 : 0 < qs.length := List.length_pos.mpr hq
  omega

theorem scoring2_raw_le_w2sum (qs ds : List Char) :
    nwScore Scoring2.SCORING_MATRIX Scoring2.GAP_OPEN_PENALTY Scoring2.GAP_EXTEND_PENALTY qs ds ≤
      (qs.map w2).sum := by
  exact nwScore_le_sum _ _ _ w2 (by decide) (by decide) scoring2_matrix_row_le w2_nonneg qs ds

theorem scoring2_w2sum_pos {qs : List Char} (hq : qs ≠ []) : 0 < (qs.map w2).sum := by
  have h1 := length_le_sum_of_one_le w2 qs (fun c _ => w2_one_le c)
  have h2 : 0 < qs.length := List.length_pos.mpr hq
  omega

/-- Both normalizers against the per-query-characters view, for the
query of a self-identical pair (core of claim C1). -/
theorem normalizer_self_core (qs : List Char) (hqa : ∀ c ∈ qs, c ∈ SCORING_ALPHABET) :
    Scoring1.totalPossibleScore qs =
      nwScore Scoring1.SCORING_MATRIX Scoring1.GAP_OPEN_PENALTY Scoring1.GAP_EXTEND_PENALTY qs qs ∧
    Scoring2.totalPossibleScore qs =
      .ok (nwScore Scoring2.SCORING_MATRIX Scoring2.GAP_OPEN_PENALTY Scoring2.GAP_EXTEND_PENALTY qs qs +
        3 * ((qs.filter (fun c => c ∈ Scoring2.DUBIOUS_LETTERS)).length : Int)) := by
  constructor
  · rw [scoring1_tps_eq,
      nwScore_self_eq _ _ _ (by decide) (by decide) scoring1_matrix_diag_dominates
        (fun c => by rw [scoring1_matrix_diag]; exact w1_nonneg c)]
    simp only [scoring1_matrix_diag]
  · rw [scoring2_tps_valid hqa,
      nwScore_self_eq _ _ _ (by decide) (by decide) scoring2_matrix_diag_dominates
        scoring2_matrix_diag_nonneg,
      w2_sum_eq_diag_sum_add hqa]

/-! # Claim theorems -/

/-- C1, counterexample: under policy 2 the normalizer of a query
consisting of the dubious letter `V` is `5`, while the maximum achievable
self-alignment score of that query under policy 2's matrix is `2`
(its reduced self-match weight), so the normalizer is not the maximum
achievable self-alignment score. -/
theorem C1_counterexample :
    Scoring2.totalPossibleScore ['V'] = .ok 5 ∧
    nwScore Scoring2.SCORING_MATRIX Scoring2.GAP_OPEN_PENALTY Scoring2.GAP_EXTEND_PENALTY
      ['V'] ['V'] = 2 ∧
    Scoring2.totalPossibleScore ['V'] ≠
      .ok (nwScore Scoring2.SCORING_MATRIX Scoring2.GAP_OPEN_PENALTY Scoring2.GAP_EXTEND_PENALTY
        ['V'] ['V']) := by
  refine ⟨by decide, by decide, ?_⟩
  intro h
  exact absurd h (by decide)

/-- C1, amended: for every pair of non-empty alphabet sequences, policy
1's normalizer equals the maximum achievable self-alignment score of the
query; policy 2's normalizer instead exceeds that maximum by `3` for each
dubious letter of the query (the dubious letters contribute the base
match weight `5` to the normalizer but only `2` on the matrix diagonal). -/
theorem C1_amended (seq1 seq2 : List Char) (h1 : seq1 ≠ []) (h2 : seq2 ≠ [])
    (ha1 : ∀ c ∈ seq1, c ∈ SCORING_ALPHABET) (ha2 : ∀ c ∈ seq2, c ∈ SCORING_ALPHABET) :
    Scoring1.totalPossibleScore (queryOf seq1 seq2) =
      nwScore Scoring1.SCORING_MATRIX Scoring1.GAP_OPEN_PENALTY Scoring1.GAP_EXTEND_PENALTY
        (queryOf seq1 seq2) (queryOf seq1 seq2) ∧
    Scoring2.totalPossibleScore (queryOf seq1 seq2) =
      .ok (nwScore Scoring2.SCORING_MATRIX Scoring2.GAP_OPEN_PENALTY Scoring2.GAP_EXTEND_PENALTY
        (queryOf seq1 seq2) (queryOf seq1 seq2) +
        3 * (((queryOf seq1 seq2).filter (fun c => c ∈ Scoring2.DUBIOUS_LETTERS)).length : Int)) := by
  by_cases h : seq1.length ≤ seq2.length
  · simpa [queryOf, if_pos h] using normalizer_self_core seq1 ha1
  · simpa [queryOf, if_neg h] using normalizer_self_core seq2 ha2

/-- C1, witness for the amended theorem. -/
theorem C1_witness :
    Scoring1.totalPossibleScore (queryOf ['C'] ['C', 'D']) =
      nwScore Scoring1.SCORING_MATRIX Scoring1.GAP_OPEN_PENALTY Scoring1.GAP_EXTEND_PENALTY
        (queryOf ['C'] ['C', 'D']) (queryOf ['C'] ['C', 'D']) ∧
    Scoring2.totalPossibleScore (queryOf ['C'] ['C', 'D']) =
      .ok (nwScore Scoring2.SCORING_MATRIX Scoring2.GAP_OPEN_PENALTY Scoring2.GAP_EXTEND_PENALTY
        (queryOf ['C'] ['C', 'D']) (queryOf ['C'] ['C', 'D']) +
        3 * (((queryOf ['C'] ['C', 'D']).filter
          (fun c => c ∈ Scoring2.DUBIOUS_LETTERS)).length : Int)) :=
  C1_amended ['C'] ['C', 'D'] (by decide) (by decide) (by decide) (by decide)

/-- C2: for both policies, scoring two non-empty alphabet sequences
succeeds and the similarity lies in `[0, 1]`: it is floored at zero and
cannot exceed one because the raw score is at most the normalizer. -/
theorem C2_similarity_unit_interval :
    (∀ seq1 seq2 : List Char, seq1 ≠ [] → seq2 ≠ [] →
      (∀ c ∈ seq1, c ∈ SCORING_ALPHABET) → (∀ c ∈ seq2, c ∈ SCORING_ALPHABET) →
      ∃ q : ℚ, Scoring1.score_seqs seq1 seq2 = .ok q ∧ 0 ≤ q ∧ q ≤ 1) ∧
    (∀ seq1 seq2 : List Char, seq1 ≠ [] → seq2 ≠ [] →
      (∀ c ∈ seq1, c ∈ SCORING_ALPHABET) → (∀ c ∈ seq2, c ∈ SCORING_ALPHABET) →
      ∃ q : ℚ, Scoring2.score_seqs seq1 seq2 = .ok q ∧ 0 ≤ q ∧ q ≤ 1) := by
  constructor
  · intro seq1 seq2 h1 h2 _ _
    by_cases h : seq1.length ≤ seq2.length
    · simp only [Scoring1.score_seqs, if_pos h]
      exact ⟨_, rfl, sim_bounds (scoring1_raw_le_tps seq1 seq2) (scoring1_tps_pos h1)⟩
    · simp only [Scoring1.score_seqs, if_neg h]
      exact ⟨_, rfl, sim_bounds (scoring1_raw_le_tps seq2 seq1) (scoring1_tps_pos h2)⟩
  · intro seq1 seq2 h1 h2 ha1 ha2
    by_cases h : seq1.length ≤ seq2.length
    · simp only [Scoring2.score_seqs, if_pos h, scoring2_tps_valid ha1]
      exact ⟨_, rfl, sim_bounds (scoring2_raw_le_w2sum seq1 seq2) (scoring2_w2sum_pos h1)⟩
    · simp only [Scoring2.score_seqs, if_neg h, scoring2_tps_valid ha2]
      exact ⟨_, rfl, sim_bounds (scoring2_raw_le_w2sum seq2 seq1) (scoring2_w2sum_pos h2)⟩

/-- C2, witness. -/
theorem C2_witness :
    (∃ q : ℚ, Scoring1.score_seqs ['C'] ['D'] = .ok q ∧ 0 ≤ q ∧ q ≤ 1) ∧
    (∃ q : ℚ, Scoring2.score_seqs ['C'] ['D'] = .ok q ∧ 0 ≤ q ∧ q ≤ 1) :=
  ⟨C2_similarity_unit_interval.1 ['C'] ['D'] (by decide) (by decide) (by decide) (by decide),
   C2_similarity_unit_interval.2 ['C'] ['D'] (by decide) (by decide) (by decide) (by decide)⟩

/-- C3, counterexample: for the equal-length alphabet sequences `CD` and
`DD`, policy 1's similarity is not symmetric — both directions share the
raw alignment score `1`, but the normalizer is computed on the first
argument (`6` for query `CD`, `10` for query `DD`), giving `1/6 ≠ 1/10`. -/
theorem C3_counterexample :
    Scoring1.score_seqs ['C', 'D'] ['D', 'D'] ≠
      Scoring1.score_seqs ['D', 'D'] ['C', 'D'] := by
  have hr1 : nwScore Scoring1.SCORING_MATRIX Scoring1.GAP_OPEN_PENALTY
      Scoring1.GAP_EXTEND_PENALTY ['C', 'D'] ['D', 'D'] = 1 := by decide
  have hr2 : nwScore Scoring1.SCORING_MATRIX Scoring1.GAP_OPEN_PENALTY
      Scoring1.GAP_EXTEND_PENALTY ['D', 'D'] ['C', 'D'] = 1 := by decide
  have ht1 : Scoring1.totalPossibleScore ['C', 'D'] = 6 := by decide
  have ht2 : Scoring1.totalPossibleScore ['D', 'D'] = 10 := by decide
  simp only [Scoring1.score_seqs, List.length_cons, List.length_nil, le_refl, if_pos,
    hr1, hr2, ht1, ht2]
  intro h
  rw [Except.ok.injEq] at h
  norm_num at h

/-- C3, amended: the similarity is symmetric in the argument order
whenever the two sequences have different lengths (both calls then pick
the same query/database pair); for equal lengths the normalizer follows
the first argument and symmetry can fail. -/
theorem C3_amended (seq1 seq2 : List Char) (hne : seq1.length ≠ seq2.length) :
    Scoring1.score_seqs seq1 seq2 = Scoring1.score_seqs seq2 seq1 ∧
    Scoring2.score_seqs seq1 seq2 = Scoring2.score_seqs seq2 seq1 := by
  rcases Nat.lt_or_ge seq1.length seq2.length with h | h
  · have h12 : seq1.length ≤ seq2.length := le_of_lt h
    have h21 : ¬ seq2.length ≤ seq1.length := by omega
    constructor
    · simp only [Scoring1.score_seqs, if_pos h12, if_neg h21]
    · simp only [Scoring2.score_seqs, if_pos h12, if_neg h21]
  · have hlt : seq2.length < seq1.length := by omega
    have h12 : ¬ seq1.length ≤ seq2.length := by omega
    have h21 : seq2.length ≤ seq1.length := le_of_lt hlt
    constructor
    · simp only [Scoring1.score_seqs, if_pos h21, if_neg h12]
    · simp only [Scoring2.score_seqs, if_pos h21, if_neg h12]

/-- C3, witness for the amended theorem. -/
theorem C3_witness :
    Scoring1.score_seqs ['C'] ['D', 'D'] = Scoring1.score_seqs ['D', 'D'] ['C'] ∧
    Scoring2.score_seqs ['C'] ['D', 'D'] = Scoring2.score_seqs ['D', 'D'] ['C'] :=
  C3_amended ['C'] ['D', 'D'] (by decide)

/-- C4, counterexample: policy 1 performs no symbol-class lookup, so
scoring the out-of-alphabet sequence `Z` (as query) succeeds instead of
failing with the unknown-symbol error. -/
theorem C4_counterexample :
    'Z' ∉ SCORING_ALPHABET ∧ (Scoring1.score_seqs ['Z'] ['Z']).isOk = true := by
  exact ⟨by decide, by decide⟩

/-- C4, amended: under policy 2, a query character outside the
symbol-class table makes scoring fail with the unknown-symbol
(`ValueError`) failure, and a character outside the alphabet never makes
allele loading fail — loading succeeds whenever the required columns are
present, the arm is non-empty and the consensus is non-empty, whatever
the consensus characters are. -/
theorem C4_amended :
    (∀ seq1 seq2 : List Char,
      (∃ c ∈ queryOf seq1 seq2, c ∉ SCORING_ALPHABET) →
      ∃ c, c ∉ SCORING_ALPHABET ∧
        Scoring2.score_seqs seq1 seq2 = .error (.invalidLetter c)) ∧
    (∀ (b : Nat) (r : Row) (tvr arm aid : String),
      rowGet r "tvr_consensus" = some tvr → tvr.toList ≠ [] →
      rowGet r "#chr" = some arm → arm ≠ "" → rowGet r "allele_id" = some aid →
      build_telo_from_row b r = .ok ⟨arm, aid, tvr.toList, encode_seq b tvr.toList⟩) := by
  constructor
  · intro seq1 seq2 hex
    by_cases h : seq1.length ≤ seq2.length
    · have hq : ∃ c ∈ seq1, c ∉ SCORING_ALPHABET := by
        simpa [queryOf, if_pos h] using hex
      rcases scoring2_tps_invalid seq1 hq with ⟨c₀, hc₀, heq⟩
      refine ⟨c₀, hc₀, ?_⟩
      simp only [Scoring2.score_seqs, if_pos h, heq]
      rfl
    · have hq : ∃ c ∈ seq2, c ∉ SCORING_ALPHABET := by
        simpa [queryOf, if_neg h] using hex
      rcases scoring2_tps_invalid seq2 hq with ⟨c₀, hc₀, heq⟩
      refine ⟨c₀, hc₀, ?_⟩
      simp only [Scoring2.score_seqs, if_neg h, heq]
      rfl
  · intro b r tvr arm aid htvr htl harm harmne haid
    simp only [build_telo_from_row, htvr, harm, haid, Option.getD_some]
    rw [if_neg harmne, if_neg htl]

/-- C4, witness for the amended theorem. -/
theorem C4_witness :
    (∃ c, c ∉ SCORING_ALPHABET ∧
      Scoring2.score_seqs ['Z'] ['A', 'A'] = .error (.invalidLetter c)) ∧
    build_telo_from_row 4 [("tvr_consensus", "ZZC"), ("#chr", "chr1p"), ("allele_id", "7")] =
      .ok ⟨"chr1p", "7", "ZZC".toList, encode_seq 4 "ZZC".toList⟩ :=
  ⟨C4_amended.1 ['Z'] ['A', 'A'] (by decide),
   C4_amended.2 4 [("tvr_consensus", "ZZC"), ("#chr", "chr1p"), ("allele_id", "7")]
     "ZZC" "chr1p" "7" (by decide) (by decide) (by decide) (by decide) (by decide)⟩

/-- C5: on a non-empty sequence the encoder emits, for each maximal run
of a character `c` of length `n` in order, `c` repeated
`1 + round(log_base n)` times; `maximalRuns` really is the maximal-run
decomposition (it re-inflates to the input, adjacent runs have distinct
characters, and every run is non-empty, so a run of length 1 emits
exactly one copy because `roundLog b 1 = 0`). -/
theorem C5_encode_runs (b : Nat) (s : List Char) (hb : 2 ≤ b) (hs : s ≠ []) :
    encode_seq b s =
      ((maximalRuns s).map (fun r => List.replicate (1 + roundLog b r.2) r.1)).flatten ∧
    ((maximalRuns s).map (fun r => List.replicate r.2 r.1)).flatten = s ∧
    List.Chain' (fun a b : Char × Nat => a.1 ≠ b.1) (maximalRuns s) ∧
    (∀ r ∈ maximalRuns s, 1 ≤ r.2) ∧
    roundLog b 1 = 0 := by
  refine ⟨encode_seq_eq_runs b s, maximalRuns_flatten s, maximalRuns_chain s,
    maximalRuns_pos s, ?_⟩
  have h := roundLog_le b 0 hb
  simp only [Nat.zero_add] at h
  omega

/-- C5, witness. -/
theorem C5_witness :
    encode_seq 4 ['A', 'A', 'B'] =
      ((maximalRuns ['A', 'A', 'B']).map
        (fun r => List.replicate (1 + roundLog 4 r.2) r.1)).flatten ∧
    ((maximalRuns ['A', 'A', 'B']).map (fun r => List.replicate r.2 r.1)).flatten =
      ['A', 'A', 'B'] ∧
    List.Chain' (fun a b : Char × Nat => a.1 ≠ b.1) (maximalRuns ['A', 'A', 'B']) ∧
    (∀ r ∈ maximalRuns ['A', 'A', 'B'], 1 ≤ r.2) ∧
    roundLog 4 1 = 0 :=
  C5_encode_runs 4 ['A', 'A', 'B'] (by decide) (by decide)

/-- C6: for every log base `b ≥ 2` and non-empty sequence, the encoding
is non-empty and no longer than the input. -/
theorem C6_encode_length (b : Nat) (s : List Char) (hb : 2 ≤ b) (hs : s ≠ []) :
    encode_seq b s ≠ [] ∧ (encode_seq b s).length ≤ s.length :=
  ⟨encode_seq_ne_nil b hs, encode_seq_length_le b hb s⟩

/-- C6, witness. -/
theorem C6_witness :
    encode_seq 4 ['C', 'C', 'C'] ≠ [] ∧
    (encode_seq 4 ['C', 'C', 'C']).length ≤ (['C', 'C', 'C'] : List Char).length :=
  C6_encode_length 4 ['C', 'C', 'C'] (by decide) (by decide)

/-- C7: in both policies' matrices every alphabet symbol's self-match
entry is at least the mismatch score, and the canonical symbol's
self-match score is strictly below that of every non-canonical,
non-dubious symbol. -/
theorem C7_matrix_invariants :
    ∀ c ∈ SCORING_ALPHABET,
      Scoring1.MISMATCH_SCORE ≤ Scoring1.SCORING_MATRIX c c ∧
      Scoring2.MISMATCH_SCORE ≤ Scoring2.SCORING_MATRIX c c ∧
      (c ≠ CANONICAL_LETTER → c ∉ Scoring2.DUBIOUS_LETTERS →
        Scoring1.SCORING_MATRIX CANONICAL_LETTER CANONICAL_LETTER <
          Scoring1.SCORING_MATRIX c c ∧
        Scoring2.SCORING_MATRIX CANONICAL_LETTER CANONICAL_LETTER <
          Scoring2.SCORING_MATRIX c c) := by
  decide

/-- C7, witness. -/
theorem C7_witness :
    Scoring1.MISMATCH_SCORE ≤ Scoring1.SCORING_MATRIX 'D' 'D' ∧
    Scoring2.MISMATCH_SCORE ≤ Scoring2.SCORING_MATRIX 'D' 'D' ∧
    ('D' ≠ CANONICAL_LETTER → 'D' ∉ Scoring2.DUBIOUS_LETTERS →
      Scoring1.SCORING_MATRIX CANONICAL_LETTER CANONICAL_LETTER <
        Scoring1.SCORING_MATRIX 'D' 'D' ∧
      Scoring2.SCORING_MATRIX CANONICAL_LETTER CANONICAL_LETTER <
        Scoring2.SCORING_MATRIX 'D' 'D') :=
  C7_matrix_invariants 'D' (by decide)

/-- C8, counterexample: the formatter does not fail on the unsupported
operation code 9 — it silently skips the item and produces (here empty)
output. -/
theorem C8_counterexample :
    fmt_alignment ['A'] ['A'] [(9, 1)] = .ok ([], [], []) := by decide

/-- C8, amended: an operation code other than 0/1/2/3/4/7/8 matches no
branch of the formatter's loop body, so the item is silently skipped:
formatting with the unsupported item equals formatting without it. -/
theorem C8_amended (seq1 seq2 : List Char) (op n : Nat) (rest : List (Nat × Nat))
    (hop : ¬(op = 0 ∨ op = 1 ∨ op = 2 ∨ op = 3 ∨ op = 4 ∨ op = 7 ∨ op = 8)) :
    fmt_alignment seq1 seq2 ((op, n) :: rest) = fmt_alignment seq1 seq2 rest := by
  simp only [fmt_alignment]
  exact fmtGo_skip_unsupported _ op n rest hop

/-- C8, witness for the amended theorem. -/
theorem C8_witness :
    fmt_alignment ['A'] ['A', 'C'] [(9, 3), (0, 1)] =
      fmt_alignment ['A'] ['A', 'C'] [(0, 1)] :=
  C8_amended ['A'] ['A', 'C'] 9 3 [(0, 1)] (by decide)

/-- C9: during loading a row is excluded exactly when its `tvr_len`
column is present and textually equal to `"0"`; a row with no `tvr_len`
column is kept. -/
theorem C9_row_filter (rows : List Row) (r : Row) (hr : r ∈ rows) :
    (r ∉ readSampleRows rows ↔ rowGet r "tvr_len" = some "0") ∧
    (rowGet r "tvr_len" = none → r ∈ readSampleRows rows) := by
  have hmem : r ∈ readSampleRows rows ↔ filter_row r = true := by
    simp [readSampleRows, List.mem_filter, hr]
  have hfr : filter_row r = true ↔ ¬(rowGet r "tvr_len" = some "0") := by
    simp [filter_row]
  constructor
  · rw [hmem, hfr]; tauto
  · intro hnone
    rw [hmem, hfr, hnone]
    simp

/-- C9, witness. -/
theorem C9_witness :
    (([("tvr_consensus", "CC")] : Row) ∉
        readSampleRows [[("tvr_consensus", "CC")], [("tvr_len", "0")]] ↔
      rowGet [("tvr_consensus", "CC")] "tvr_len" = some "0") ∧
    (rowGet [("tvr_consensus", "CC")] "tvr_len" = none →
      ([("tvr_consensus", "CC")] : Row) ∈
        readSampleRows [[("tvr_consensus", "CC")], [("tvr_len", "0")]]) :=
  C9_row_filter [[("tvr_consensus", "CC")], [("tvr_len", "0")]]
    [("tvr_consensus", "CC")] (by decide)

/-- C10: under both reference log bases a run of length 2 emits a single
copy (`round(log_4 2) = round(1/2) = 0` by round-half-to-even, and
`log_5 2 < 1/2`), so `CC` encodes to `C` exactly like `C` does and the
encoding is already non-injective on inputs of length at most 2. -/
theorem C10_length_two_runs :
    1 + roundLog 4 2 = 1 ∧ 1 + roundLog 5 2 = 1 ∧
    encode_seq 4 ['C', 'C'] = ['C'] ∧ encode_seq 5 ['C', 'C'] = ['C'] ∧
    encode_seq 4 ['C'] = ['C'] ∧ encode_seq 5 ['C'] = ['C'] ∧
    (['C', 'C'] : List Char) ≠ ['C'] := by decide

end Teloscore
